import Mathlib

/-!
Verification of the procedural-memory reconciliation pass of the `gatto`
repository (`core/cat/looking_glass/cheshire_cat.py`, `CheshireCat.embed_tools`).

The embedding below is a shallow model of `embed_tools` and of the vector-store
operations it consumes (`get_all_points`, `add_texts`, `delete`).  The store is
a list of points, each with an identifier, the embedded text (`page_content`)
and a metadata payload; identifiers are assigned by an increasing counter,
modelling the store assigning fresh opaque ids.  `time.time()` is modelled by
an ambient clock threaded through the state.  The store contract allows the
initial fetch and each insert to fail (raising an exception); Python exception
propagation is modelled by the `err` constructor of `PassResult`, which carries
the store state and the operation trace at the moment the exception escapes.
-/

namespace Gatto

/-- A tool descriptor from the MadHatter plugin registry: `tool.name`,
`tool.description`, `tool.docstring` as read by `embed_tools`. -/
structure Tool where
  name : String
  description : String
  docstring : String
deriving DecidableEq

/-- The metadata dictionary passed to `add_texts`:
`{"source": "tool", "when": time.time(), "name": tool.name, "docstring": tool.docstring}`. -/
structure Payload where
  source : String
  «when» : Nat
  name : String
  docstring : String
deriving DecidableEq

/-- One stored point: identifier, embedded text (`payload["page_content"]`),
and the metadata payload. -/
structure Point where
  id : Nat
  page_content : String
  payload : Payload
deriving DecidableEq

/-- The procedural collection of the vector store, plus the id counter (the
store assigns fresh identifiers at insertion) and the ambient clock
(modelling `time.time()`). -/
structure Store where
  points : List Point
  nextId : Nat
  clock : Nat
deriving DecidableEq

/-- A store operation issued by the pass: one `add_texts` call or the single
batched `delete` call. -/
inductive StoreOp where
  | insert (text : String) (metadata : Payload)
  | deleteBatch (ids : List Nat)
deriving DecidableEq

/-- Outcome of a pass: normal completion, or an escaped exception (`err`)
carrying the store state and the operations already performed when the
exception propagated. -/
inductive PassResult where
  | ok (st : Store) (ops : List StoreOp)
  | err (msg : String) (st : Store) (ops : List StoreOp)
deriving DecidableEq

/-- Store state of a result (on `err`, the state at the moment the exception
escaped: inserts already performed persist). -/
def PassResult.store : PassResult → Store
  | .ok st _ => st
  | .err _ st _ => st

/-- Operation trace of a result. -/
def PassResult.ops : PassResult → List StoreOp
  | .ok _ ops => ops
  | .err _ _ ops => ops

/-- `add_texts([text], [metadata])`: the store embeds the text and persists one
new point under a fresh identifier; the clock advances. -/
def addTexts (st : Store) (text : String) (metadata : Payload) : Store :=
  { points := st.points ++ [⟨st.nextId, text, metadata⟩],
    nextId := st.nextId + 1,
    clock := st.clock + 1 }

/-- `vector_db.delete(collection_name="procedural", points_selector=ids)`:
removes the listed points. -/
def deletePoints (st : Store) (ids : List Nat) : Store :=
  { st with points := st.points.filter (fun p => p.id ∉ ids) }

/-- The insert loop of `embed_tools`: for each tool, if its description is not
in `embedded_tools_descriptions` (the list built from the initial fetch, never
updated inside the loop), call `add_texts`.  There is no `try/except` in the
source, so a failing insert propagates, aborting the loop. -/
def embedLoop (tools : List Tool) (embedded_tools_descriptions : List String)
    (insertFails : String → Bool) (st : Store) : PassResult :=
  match tools with
  | [] => .ok st []
  | tool :: rest =>
    if tool.description ∈ embedded_tools_descriptions then
      embedLoop rest embedded_tools_descriptions insertFails st
    else if insertFails tool.description then
      .err "EmbeddingProviderError" st []
    else
      let metadata : Payload := ⟨"tool", st.clock, tool.name, tool.docstring⟩
      match embedLoop rest embedded_tools_descriptions insertFails
          (addTexts st tool.description metadata) with
      | .ok st2 ops => .ok st2 (.insert tool.description metadata :: ops)
      | .err m st2 ops => .err m st2 (.insert tool.description metadata :: ops)

/-- `CheshireCat.embed_tools`: fetch all points of the procedural collection,
insert every registry tool whose description is not among the fetched
descriptions, then mark for deletion every fetched point whose description is
not among the registry descriptions, and issue one batched delete if the list
is non-empty. `tools` is the `mad_hatter.tools` registry snapshot;
`fetchFails` injects a failure of the initial `get_all_points`. -/
def embed_tools (tools : List Tool) (st : Store)
    (fetchFails : Bool) (insertFails : String → Bool) : PassResult :=
  if fetchFails then .err "StoreReadError" st []
  else
    let embedded_tools := st.points
    let embedded_tools_ids := embedded_tools.map (fun t => t.id)
    let embedded_tools_descriptions := embedded_tools.map (fun t => t.page_content)
    match embedLoop tools embedded_tools_descriptions insertFails st with
    | .err m st1 ops => .err m st1 ops
    | .ok st1 ops =>
      let mad_hatter_tools_descriptions := tools.map (fun t => t.description)
      let points_to_be_deleted :=
        (embedded_tools_ids.zip embedded_tools_descriptions).filterMap
          (fun pr => if pr.2 ∈ mad_hatter_tools_descriptions then none else some pr.1)
      if points_to_be_deleted.length > 0 then
        .ok (deletePoints st1 points_to_be_deleted) (ops ++ [.deleteBatch points_to_be_deleted])
      else
        .ok st1 ops

/-- Store sanity: every stored point's identifier is below the fresh-id
counter, and identifiers are pairwise distinct (the store assigns fresh opaque
ids at insertion). -/
def Store.wf (st : Store) : Prop :=
  (∀ p ∈ st.points, p.id < st.nextId) ∧ (st.points.map (fun p => p.id)).Nodup

/-- The identifiers the pass marks stale: ids of fetched points whose
description is not among the registry descriptions (the
`points_to_be_deleted` list of `embed_tools`, re-expressed over the point
list). -/
def staleIds (tools : List Tool) (st : Store) : List Nat :=
  st.points.filterMap
    (fun p => if p.page_content ∈ tools.map (fun t => t.description) then none
              else some p.id)

instance (st : Store) : Decidable st.wf := by
  unfold Store.wf
  infer_instance

@[simp] theorem PassResult.store_ok (st : Store) (ops : List StoreOp) :
    (PassResult.ok st ops).store = st := rfl

@[simp] theorem PassResult.store_err (m : String) (st : Store) (ops : List StoreOp) :
    (PassResult.err m st ops).store = st := rfl

@[simp] theorem PassResult.ops_ok (st : Store) (ops : List StoreOp) :
    (PassResult.ok st ops).ops = ops := rfl

@[simp] theorem PassResult.ops_err (m : String) (st : Store) (ops : List StoreOp) :
    (PassResult.err m st ops).ops = ops := rfl

@[simp] theorem embedLoop_nil (ed : List String) (f : String → Bool) (st : Store) :
    embedLoop [] ed f st = .ok st [] := rfl

theorem embedLoop_cons_mem (tool : Tool) (rest : List Tool) (ed : List String)
    (f : String → Bool) (st : Store) (hmem : tool.description ∈ ed) :
    embedLoop (tool :: rest) ed f st = embedLoop rest ed f st := by
  simp [embedLoop, hmem]

theorem embedLoop_cons_fail (tool : Tool) (rest : List Tool) (ed : List String)
    (f : String → Bool) (st : Store) (hmem : tool.description ∉ ed)
    (hf : f tool.description = true) :
    embedLoop (tool :: rest) ed f st = .err "EmbeddingProviderError" st [] := by
  simp [embedLoop, hmem, hf]

theorem embedLoop_cons_insert (tool : Tool) (rest : List Tool) (ed : List String)
    (f : String → Bool) (st : Store) (hmem : tool.description ∉ ed)
    (hf : f tool.description = false) :
    embedLoop (tool :: rest) ed f st =
      match embedLoop rest ed f
          (addTexts st tool.description ⟨"tool", st.clock, tool.name, tool.docstring⟩) with
      | .ok st2 ops =>
        .ok st2 (.insert tool.description ⟨"tool", st.clock, tool.name, tool.docstring⟩ :: ops)
      | .err m st2 ops =>
        .err m st2 (.insert tool.description ⟨"tool", st.clock, tool.name, tool.docstring⟩ :: ops) := by
  simp [embedLoop, hmem, hf]

theorem embedLoop_cons_insert_store (tool : Tool) (rest : List Tool) (ed : List String)
    (f : String → Bool) (st : Store) (hmem : tool.description ∉ ed)
    (hf : f tool.description = false) :
    (embedLoop (tool :: rest) ed f st).store =
      (embedLoop rest ed f
        (addTexts st tool.description ⟨"tool", st.clock, tool.name, tool.docstring⟩)).store := by
  rw [embedLoop_cons_insert tool rest ed f st hmem hf]
  cases embedLoop rest ed f
      (addTexts st tool.description ⟨"tool", st.clock, tool.name, tool.docstring⟩) <;> rfl

theorem embedLoop_cons_insert_ops (tool : Tool) (rest : List Tool) (ed : List String)
    (f : String → Bool) (st : Store) (hmem : tool.description ∉ ed)
    (hf : f tool.description = false) :
    (embedLoop (tool :: rest) ed f st).ops =
      .insert tool.description ⟨"tool", st.clock, tool.name, tool.docstring⟩ ::
        (embedLoop rest ed f
          (addTexts st tool.description ⟨"tool", st.clock, tool.name, tool.docstring⟩)).ops := by
  rw [embedLoop_cons_insert tool rest ed f st hmem hf]
  cases embedLoop rest ed f
      (addTexts st tool.description ⟨"tool", st.clock, tool.name, tool.docstring⟩) <;> rfl

/-- The insert loop only appends points: the fetched snapshot is a prefix of
the resulting point list, and every appended point carries a fresh identifier,
a description that was not embedded at fetch time, and the description of one
of the registry tools. -/
theorem embedLoop_points_ext (tools : List Tool) (ed : List String)
    (f : String → Bool) (st : Store) :
    ∃ news, (embedLoop tools ed f st).store.points = st.points ++ news ∧
      ∀ q ∈ news, st.nextId ≤ q.id ∧ q.page_content ∉ ed ∧
        ∃ t ∈ tools, q.page_content = t.description := by
  induction tools generalizing st with
  | nil => exact ⟨[], by simp, by simp⟩
  | cons tool rest ih =>
    by_cases hmem : tool.description ∈ ed
    · obtain ⟨news, h1, h2⟩ := ih st
      refine ⟨news, ?_, ?_⟩
      · rw [embedLoop_cons_mem tool rest ed f st hmem]; exact h1
      · intro q hq
        obtain ⟨ha, hb, t, ht, hc⟩ := h2 q hq
        exact ⟨ha, hb, t, List.mem_cons_of_mem _ ht, hc⟩
    · cases hf : f tool.description with
      | true =>
        refine ⟨[], ?_, by simp⟩
        rw [embedLoop_cons_fail tool rest ed f st hmem hf]
        simp
      | false =>
        obtain ⟨news, h1, h2⟩ :=
          ih (addTexts st tool.description ⟨"tool", st.clock, tool.name, tool.docstring⟩)
        refine ⟨⟨st.nextId, tool.description, ⟨"tool", st.clock, tool.name, tool.docstring⟩⟩ :: news,
          ?_, ?_⟩
        · rw [embedLoop_cons_insert_store tool rest ed f st hmem hf, h1]
          simp [addTexts]
        · intro q hq
          rcases List.mem_cons.mp hq with hq | hq
          · subst hq
            exact ⟨Nat.le_refl _, hmem, tool, List.mem_cons_self _ _, rfl⟩
          · obtain ⟨ha, hb, t, ht, hc⟩ := h2 q hq
            refine ⟨?_, hb, t, List.mem_cons_of_mem _ ht, hc⟩
            calc st.nextId ≤ st.nextId + 1 := Nat.le_succ _
              _ ≤ q.id := ha

/-- Every operation issued by the insert loop is an `add_texts` call for a
registry tool whose description was not embedded at fetch time, with the
metadata dictionary built in the source. -/
theorem embedLoop_ops_shape (tools : List Tool) (ed : List String)
    (f : String → Bool) (st : Store) :
    ∀ op ∈ (embedLoop tools ed f st).ops, ∃ t ∈ tools, t.description ∉ ed ∧
      ∃ w, op = .insert t.description ⟨"tool", w, t.name, t.docstring⟩ := by
  induction tools generalizing st with
  | nil => simp
  | cons tool rest ih =>
    by_cases hmem : tool.description ∈ ed
    · rw [show (embedLoop (tool :: rest) ed f st).ops = (embedLoop rest ed f st).ops from
        congrArg PassResult.ops (embedLoop_cons_mem tool rest ed f st hmem)]
      intro op hop
      obtain ⟨t, ht, h1, w, h2⟩ := ih st op hop
      exact ⟨t, List.mem_cons_of_mem _ ht, h1, w, h2⟩
    · cases hf : f tool.description with
      | true =>
        rw [show (embedLoop (tool :: rest) ed f st).ops = [] from
          congrArg PassResult.ops (embedLoop_cons_fail tool rest ed f st hmem hf)]
        simp
      | false =>
        rw [embedLoop_cons_insert_ops tool rest ed f st hmem hf]
        intro op hop
        rcases List.mem_cons.mp hop with hop | hop
        · exact ⟨tool, List.mem_cons_self _ _, hmem, st.clock, hop⟩
        · obtain ⟨t, ht, h1, w, h2⟩ :=
            ih (addTexts st tool.description ⟨"tool", st.clock, tool.name, tool.docstring⟩) op hop
          exact ⟨t, List.mem_cons_of_mem _ ht, h1, w, h2⟩

/-- With no injected insert failure the insert loop completes normally. -/
theorem embedLoop_noFail_ok (tools : List Tool) (ed : List String) (st : Store) :
    ∃ st' ops, embedLoop tools ed (fun _ => false) st = .ok st' ops := by
  induction tools generalizing st with
  | nil => exact ⟨st, [], rfl⟩
  | cons tool rest ih =>
    by_cases hmem : tool.description ∈ ed
    · rw [embedLoop_cons_mem tool rest ed (fun _ => false) st hmem]
      exact ih st
    · obtain ⟨st', ops, h⟩ :=
        ih (addTexts st tool.description ⟨"tool", st.clock, tool.name, tool.docstring⟩)
      rw [embedLoop_cons_insert tool rest ed (fun _ => false) st hmem rfl, h]
      exact ⟨_, _, rfl⟩

/-- With no injected failure, every registry description that was not embedded
at fetch time is present in the point list after the insert loop. -/
theorem embedLoop_covers (tools : List Tool) (ed : List String) (st : Store) :
    ∀ t ∈ tools, t.description ∉ ed →
      t.description ∈
        (embedLoop tools ed (fun _ => false) st).store.points.map (fun p => p.page_content) := by
  induction tools generalizing st with
  | nil => simp
  | cons tool rest ih =>
    intro t ht hted
    by_cases hmem : tool.description ∈ ed
    · rw [show (embedLoop (tool :: rest) ed (fun _ => false) st).store =
          (embedLoop rest ed (fun _ => false) st).store from
        congrArg PassResult.store (embedLoop_cons_mem tool rest ed (fun _ => false) st hmem)]
      rcases List.mem_cons.mp ht with h | h
      · subst h; exact absurd hmem hted
      · exact ih st t h hted
    · rw [embedLoop_cons_insert_store tool rest ed (fun _ => false) st hmem rfl]
      set st1 := addTexts st tool.description ⟨"tool", st.clock, tool.name, tool.docstring⟩ with hst1
      obtain ⟨news, hext, -⟩ := embedLoop_points_ext rest ed (fun _ => false) st1
      rcases List.mem_cons.mp ht with h | h
      · subst h
        have hmem1 : (⟨st.nextId, t.description, ⟨"tool", st.clock, t.name, t.docstring⟩⟩ : Point)
            ∈ (embedLoop rest ed (fun _ => false) st1).store.points := by
          rw [hext]
          refine List.mem_append_left _ ?_
          simp [hst1, addTexts]
        exact List.mem_map.mpr ⟨_, hmem1, rfl⟩
      · exact ih st1 t h hted

/-- Point count per description after the insert loop (no injected failure):
an already embedded description gains no point; a not-yet-embedded description
gains one point per registry tool carrying it (the membership check is against
the fetch-time list, which is never updated inside the loop). -/
theorem embedLoop_count (tools : List Tool) (ed : List String) (st : Store) (d : String) :
    ((embedLoop tools ed (fun _ => false) st).store.points.filter
        (fun p => p.page_content = d)).length =
      (st.points.filter (fun p => p.page_content = d)).length +
        (if d ∈ ed then 0 else (tools.filter (fun t => t.description = d)).length) := by
  induction tools generalizing st with
  | nil => simp
  | cons tool rest ih =>
    by_cases hmem : tool.description ∈ ed
    · rw [show (embedLoop (tool :: rest) ed (fun _ => false) st).store =
          (embedLoop rest ed (fun _ => false) st).store from
        congrArg PassResult.store (embedLoop_cons_mem tool rest ed (fun _ => false) st hmem)]
      rw [ih st]
      by_cases hd : d ∈ ed
      · simp [hd]
      · have : tool.description ≠ d := fun he => hd (he ▸ hmem)
        simp [hd, List.filter_cons, this]
    · rw [embedLoop_cons_insert_store tool rest ed (fun _ => false) st hmem rfl]
      rw [ih (addTexts st tool.description ⟨"tool", st.clock, tool.name, tool.docstring⟩)]
      by_cases hd : d ∈ ed
      · have : tool.description ≠ d := fun he => hmem (he ▸ hd)
        simp [hd, addTexts, List.filter_append, this]
      · by_cases he : tool.description = d
        · simp [hd, addTexts, List.filter_append, List.filter_cons, he]
          omega
        · simp [hd, addTexts, List.filter_append, List.filter_cons, he]

/-- When every registry description is already embedded, the insert loop is a
no-op: unchanged store, no operations. -/
theorem embedLoop_skip_all (tools : List Tool) (ed : List String)
    (f : String → Bool) (st : Store) (h : ∀ t ∈ tools, t.description ∈ ed) :
    embedLoop tools ed f st = .ok st [] := by
  induction tools with
  | nil => rfl
  | cons tool rest ih =>
    rw [embedLoop_cons_mem tool rest ed f st (h tool (List.mem_cons_self _ _))]
    exact ih (fun t ht => h t (List.mem_cons_of_mem _ ht))

/-- Unfolding of `embed_tools` when the initial fetch succeeds, with the
`points_to_be_deleted` list re-expressed as `staleIds` (the source builds it
by zipping the id and description lists extracted from the same fetched
snapshot). -/
theorem embed_tools_eq (tools : List Tool) (st : Store) (f : String → Bool) :
    embed_tools tools st false f =
      match embedLoop tools (st.points.map (fun p => p.page_content)) f st with
      | .err m st1 ops => .err m st1 ops
      | .ok st1 ops =>
        if (staleIds tools st).length > 0 then
          .ok (deletePoints st1 (staleIds tools st)) (ops ++ [.deleteBatch (staleIds tools st)])
        else
          .ok st1 ops := by
  have hzip : ((st.points.map (fun t => t.id)).zip
        (st.points.map (fun t => t.page_content))).filterMap
        (fun pr => if pr.2 ∈ tools.map (fun t => t.description) then none else some pr.1) =
      staleIds tools st := by
    rw [List.zip_map', List.filterMap_map]
    rfl
  unfold embed_tools
  rw [if_neg (by simp)]
  simp only [hzip]

/-- Membership in the stale-id list: exactly the ids of fetched points whose
description is absent from the registry. -/
theorem mem_staleIds (tools : List Tool) (st : Store) (i : Nat) :
    i ∈ staleIds tools st ↔
      ∃ p ∈ st.points, p.page_content ∉ tools.map (fun t => t.description) ∧ p.id = i := by
  unfold staleIds
  rw [List.mem_filterMap]
  constructor
  · rintro ⟨p, hp, hsome⟩
    by_cases hc : p.page_content ∈ tools.map (fun t => t.description)
    · rw [if_pos hc] at hsome; cases hsome
    · rw [if_neg hc] at hsome
      exact ⟨p, hp, hc, Option.some_injective _ hsome⟩
  · rintro ⟨p, hp, hc, hi⟩
    exact ⟨p, hp, by rw [if_neg hc, hi]⟩

/-- Every stale id belongs to the fetched snapshot. -/
theorem staleIds_subset_ids (tools : List Tool) (st : Store) (i : Nat)
    (h : i ∈ staleIds tools st) : i ∈ st.points.map (fun p => p.id) := by
  obtain ⟨p, hp, -, hi⟩ := (mem_staleIds tools st i).mp h
  exact List.mem_map.mpr ⟨p, hp, hi⟩

/-- In a wellformed store every stale id is below the fresh-id counter. -/
theorem staleIds_lt_nextId (tools : List Tool) (st : Store) (hwf : st.wf) (i : Nat)
    (h : i ∈ staleIds tools st) : i < st.nextId := by
  obtain ⟨p, hp, -, hi⟩ := (mem_staleIds tools st i).mp h
  exact hi ▸ hwf.1 p hp

/-- In a wellformed store, a fetched point whose description is still active
is never marked stale. -/
theorem not_mem_staleIds_of_active (tools : List Tool) (st : Store) (hwf : st.wf)
    (p : Point) (hp : p ∈ st.points)
    (hact : p.page_content ∈ tools.map (fun t => t.description)) :
    p.id ∉ staleIds tools st := by
  intro h
  obtain ⟨q, hq, hqc, hqi⟩ := (mem_staleIds tools st p.id).mp h
  have : q = p := List.inj_on_of_nodup_map hwf.2 hq hp hqi
  exact hqc (this ▸ hact)

/-- A fetched point whose description is absent from the registry is marked
stale. -/
theorem mem_staleIds_of_stale (tools : List Tool) (st : Store)
    (p : Point) (hp : p ∈ st.points)
    (hstale : p.page_content ∉ tools.map (fun t => t.description)) :
    p.id ∈ staleIds tools st :=
  (mem_staleIds tools st p.id).mpr ⟨p, hp, hstale, rfl⟩

/-- Membership after the batched delete. -/
theorem mem_deletePoints (st : Store) (ids : List Nat) (q : Point) :
    q ∈ (deletePoints st ids).points ↔ q ∈ st.points ∧ q.id ∉ ids := by
  simp [deletePoints, List.mem_filter]

/-- In the completed state of a successful pass, a point survives exactly when
it is in the post-insert-loop state and its id was not marked stale. -/
theorem embed_tools_ok_points (tools : List Tool) (st : Store) (st1 : Store)
    (ops1 : List StoreOp) (st' : Store) (ops : List StoreOp)
    (hok : embedLoop tools (st.points.map (fun p => p.page_content)) (fun _ => false) st
      = .ok st1 ops1)
    (h : embed_tools tools st false (fun _ => false) = .ok st' ops) :
    ∀ q : Point, q ∈ st'.points ↔ q ∈ st1.points ∧ q.id ∉ staleIds tools st := by
  rw [embed_tools_eq, hok] at h
  have h' : (if (staleIds tools st).length > 0 then
      PassResult.ok (deletePoints st1 (staleIds tools st))
        (ops1 ++ [StoreOp.deleteBatch (staleIds tools st)])
    else PassResult.ok st1 ops1) = PassResult.ok st' ops := h
  by_cases hlen : (staleIds tools st).length > 0
  · rw [if_pos hlen] at h'
    cases h'
    intro q
    exact mem_deletePoints st1 _ q
  · rw [if_neg hlen] at h'
    cases h'
    have hnil : staleIds tools st = [] :=
      List.length_eq_zero.mp (Nat.eq_zero_of_not_pos hlen)
    intro q
    simp [hnil]

/-- Convergence of a successful failure-free pass: the descriptions stored in
the procedural collection afterwards are exactly the registry descriptions. -/
theorem embed_tools_contents (tools : List Tool) (st : Store) (st' : Store)
    (ops : List StoreOp) (hwf : st.wf)
    (h : embed_tools tools st false (fun _ => false) = .ok st' ops) :
    ∀ d, d ∈ st'.points.map (fun p => p.page_content) ↔
      d ∈ tools.map (fun t => t.description) := by
  obtain ⟨st1, ops1, hok⟩ :=
    embedLoop_noFail_ok tools (st.points.map (fun p => p.page_content)) st
  have hpts := embed_tools_ok_points tools st st1 ops1 st' ops hok h
  obtain ⟨news, hext, hnews⟩ :=
    embedLoop_points_ext tools (st.points.map (fun p => p.page_content)) (fun _ => false) st
  rw [hok] at hext
  simp only [PassResult.store_ok] at hext
  intro d
  constructor
  · intro hd
    obtain ⟨p, hp, hpd⟩ := List.mem_map.mp hd
    obtain ⟨hp1, hps⟩ := (hpts p).mp hp
    rw [hext] at hp1
    rcases List.mem_append.mp hp1 with hmem | hmem
    · by_contra hna
      exact hps (mem_staleIds_of_stale tools st p hmem (by rw [hpd]; exact hna))
    · obtain ⟨-, -, t, ht, hc⟩ := hnews p hmem
      rw [← hpd, hc]
      exact List.mem_map.mpr ⟨t, ht, rfl⟩
  · intro hd
    by_cases hded : d ∈ st.points.map (fun p => p.page_content)
    · obtain ⟨p, hp, hpd⟩ := List.mem_map.mp hded
      have hns : p.id ∉ staleIds tools st :=
        not_mem_staleIds_of_active tools st hwf p hp (by rw [hpd]; exact hd)
      have hp' : p ∈ st'.points :=
        (hpts p).mpr ⟨by rw [hext]; exact List.mem_append_left _ hp, hns⟩
      exact List.mem_map.mpr ⟨p, hp', hpd⟩
    · obtain ⟨t, ht, htd⟩ := List.mem_map.mp hd
      have hcov := embedLoop_covers tools (st.points.map (fun p => p.page_content)) st t ht
        (by rw [htd]; exact hded)
      rw [hok] at hcov
      simp only [PassResult.store_ok] at hcov
      obtain ⟨q, hq, hqd⟩ := List.mem_map.mp hcov
      have hq' : q ∈ st'.points := by
        refine (hpts q).mpr ⟨hq, ?_⟩
        intro hqs
        have hlt := staleIds_lt_nextId tools st hwf q.id hqs
        rw [hext] at hq
        rcases List.mem_append.mp hq with hmem | hmem
        · refine hded ?_
          rw [← htd, ← hqd]
          exact List.mem_map.mpr ⟨q, hmem, rfl⟩
        · obtain ⟨hge, -, -⟩ := hnews q hmem
          omega
      exact List.mem_map.mpr ⟨q, hq', by rw [hqd, htd]⟩

/-- A failing insert loop makes the whole pass fail (no `try/except` in the
source): the escaped state and trace are those of the loop. -/
theorem embed_tools_err_eq (tools : List Tool) (st : Store) (f : String → Bool)
    (m : String) (st1 : Store) (ops1 : List StoreOp)
    (hr : embedLoop tools (st.points.map (fun p => p.page_content)) f st
      = .err m st1 ops1) :
    embed_tools tools st false f = .err m st1 ops1 := by
  rw [embed_tools_eq, hr]

/-- A successful insert loop is followed by the delete step: one batched
delete when the stale list is non-empty, no call otherwise. -/
theorem embed_tools_ok_eq (tools : List Tool) (st : Store) (f : String → Bool)
    (st1 : Store) (ops1 : List StoreOp)
    (hr : embedLoop tools (st.points.map (fun p => p.page_content)) f st
      = .ok st1 ops1) :
    embed_tools tools st false f =
      if (staleIds tools st).length > 0 then
        .ok (deletePoints st1 (staleIds tools st))
            (ops1 ++ [.deleteBatch (staleIds tools st)])
      else
        .ok st1 ops1 := by
  rw [embed_tools_eq, hr]

/-- C2: for every registry snapshot and every (wellformed) starting collection
state, after one successful reconciliation pass the set of description values
stored in the procedural collection equals exactly the set of description
values in the registry — no omissions, no stale entries. -/
theorem C2_convergence (tools : List Tool) (st st' : Store) (ops : List StoreOp)
    (hwf : st.wf)
    (h : embed_tools tools st false (fun _ => false) = .ok st' ops) :
    ∀ d, d ∈ st'.points.map (fun p => p.page_content) ↔
      d ∈ tools.map (fun t => t.description) :=
  embed_tools_contents tools st st' ops hwf h

theorem C2_convergence_witness :
    (Store.wf ⟨[], 0, 0⟩) ∧
    (("toolA" ∈ (Store.mk [⟨0, "toolA", ⟨"tool", 0, "a", "da"⟩⟩] 1 1).points.map
        (fun p => p.page_content)) ↔
      "toolA" ∈ [Tool.mk "a" "toolA" "da"].map (fun t => t.description)) :=
  ⟨by decide, C2_convergence [⟨"a", "toolA", "da"⟩] ⟨[], 0, 0⟩
    ⟨[⟨0, "toolA", ⟨"tool", 0, "a", "da"⟩⟩], 1, 1⟩
    [.insert "toolA" ⟨"tool", 0, "a", "da"⟩] (by decide) rfl "toolA"⟩

/-- C3: running the pass twice in a row on a fixed registry snapshot with no
intervening external change performs zero inserts and zero deletes on the
second run (which also leaves the store unchanged). -/
theorem C3_idempotence (tools : List Tool) (st st1 st2 : Store)
    (ops1 ops2 : List StoreOp) (hwf : st.wf)
    (h1 : embed_tools tools st false (fun _ => false) = .ok st1 ops1)
    (h2 : embed_tools tools st1 false (fun _ => false) = .ok st2 ops2) :
    ops2 = [] ∧ st2 = st1 := by
  have hc := embed_tools_contents tools st st1 ops1 hwf h1
  have hskip : embedLoop tools (st1.points.map (fun p => p.page_content))
      (fun _ => false) st1 = .ok st1 [] :=
    embedLoop_skip_all tools _ _ st1
      (fun t ht => (hc t.description).mpr (List.mem_map.mpr ⟨t, ht, rfl⟩))
  have hnil : staleIds tools st1 = [] := by
    unfold staleIds
    rw [List.filterMap_eq_nil_iff]
    intro p hp
    rw [if_pos ((hc p.page_content).mp (List.mem_map.mpr ⟨p, hp, rfl⟩))]
  rw [embed_tools_eq, hskip] at h2
  have h2' : (if (staleIds tools st1).length > 0 then
      PassResult.ok (deletePoints st1 (staleIds tools st1))
        ([] ++ [StoreOp.deleteBatch (staleIds tools st1)])
    else PassResult.ok st1 []) = PassResult.ok st2 ops2 := h2
  rw [hnil] at h2'
  simp only [List.length_nil, gt_iff_lt, Nat.lt_irrefl, if_false] at h2'
  cases h2'
  exact ⟨rfl, rfl⟩

theorem C3_idempotence_witness :
    (Store.wf ⟨[], 0, 0⟩) ∧
    (([] : List StoreOp) = [] ∧
      (Store.mk [⟨0, "toolA", ⟨"tool", 0, "a", "da"⟩⟩] 1 1)
        = ⟨[⟨0, "toolA", ⟨"tool", 0, "a", "da"⟩⟩], 1, 1⟩) :=
  ⟨by decide, C3_idempotence [⟨"a", "toolA", "da"⟩] ⟨[], 0, 0⟩
    ⟨[⟨0, "toolA", ⟨"tool", 0, "a", "da"⟩⟩], 1, 1⟩
    ⟨[⟨0, "toolA", ⟨"tool", 0, "a", "da"⟩⟩], 1, 1⟩
    [.insert "toolA" ⟨"tool", 0, "a", "da"⟩] [] (by decide) rfl rfl⟩

/-- C7: if the initial fetch of the procedural collection's points fails, the
pass aborts before performing any insert or delete: the store is unchanged and
the operation trace is empty. -/
theorem C7_fetch_failure_aborts (tools : List Tool) (st : Store) (f : String → Bool) :
    embed_tools tools st true f = .err "StoreReadError" st [] := rfl

/-- C5: within one pass every insert is issued before any delete; deletion is
one single batched call carrying the full stale-id set, and when that set is
empty no delete call is issued at all. -/
theorem C5_inserts_before_single_delete (tools : List Tool) (st : Store)
    (f : String → Bool) (st' : Store) (ops : List StoreOp)
    (h : embed_tools tools st false f = .ok st' ops) :
    ∃ ins, (∀ op ∈ ins, ∃ txt pl, op = StoreOp.insert txt pl) ∧
      ((staleIds tools st ≠ [] ∧ ops = ins ++ [StoreOp.deleteBatch (staleIds tools st)]) ∨
       (staleIds tools st = [] ∧ ops = ins)) := by
  cases hr : embedLoop tools (st.points.map (fun p => p.page_content)) f st with
  | err m st1 ops1 =>
    rw [embed_tools_err_eq tools st f m st1 ops1 hr] at h
    exact PassResult.noConfusion h
  | ok st1 ops1 =>
    rw [embed_tools_ok_eq tools st f st1 ops1 hr] at h
    have hins : ∀ op ∈ ops1, ∃ txt pl, op = StoreOp.insert txt pl := by
      intro op hop
      obtain ⟨t, -, -, w, hw⟩ := embedLoop_ops_shape tools
        (st.points.map (fun p => p.page_content)) f st op (by rw [hr]; exact hop)
      exact ⟨_, _, hw⟩
    by_cases hlen : (staleIds tools st).length > 0
    · rw [if_pos hlen] at h
      cases h
      refine ⟨ops1, hins, Or.inl ⟨?_, rfl⟩⟩
      intro hnil
      rw [hnil] at hlen
      simp at hlen
    · rw [if_neg hlen] at h
      cases h
      exact ⟨ops, hins,
        Or.inr ⟨List.length_eq_zero.mp (Nat.eq_zero_of_not_pos hlen), rfl⟩⟩

theorem C5_inserts_before_single_delete_witness :
    ∃ ins, (∀ op ∈ ins, ∃ txt pl, op = StoreOp.insert txt pl) ∧
      ((staleIds [Tool.mk "a" "toolA" "da"] ⟨[], 0, 0⟩ ≠ [] ∧
        [StoreOp.insert "toolA" ⟨"tool", 0, "a", "da"⟩] =
          ins ++ [StoreOp.deleteBatch (staleIds [Tool.mk "a" "toolA" "da"] ⟨[], 0, 0⟩)]) ∨
       (staleIds [Tool.mk "a" "toolA" "da"] ⟨[], 0, 0⟩ = [] ∧
        [StoreOp.insert "toolA" ⟨"tool", 0, "a", "da"⟩] = ins)) :=
  C5_inserts_before_single_delete [⟨"a", "toolA", "da"⟩] ⟨[], 0, 0⟩ (fun _ => false)
    ⟨[⟨0, "toolA", ⟨"tool", 0, "a", "da"⟩⟩], 1, 1⟩
    [.insert "toolA" ⟨"tool", 0, "a", "da"⟩] rfl

/-- C6: a point whose description is present both in the fetched snapshot and
in the registry snapshot is left entirely untouched by the pass: it survives,
its id is in no delete batch, and no insert for its description is issued. -/
theorem C6_present_untouched (tools : List Tool) (st : Store) (f : String → Bool)
    (st' : Store) (ops : List StoreOp) (p : Point) (hwf : st.wf)
    (hp : p ∈ st.points)
    (hact : p.page_content ∈ tools.map (fun t => t.description))
    (h : embed_tools tools st false f = .ok st' ops) :
    p ∈ st'.points ∧ (∀ ids, StoreOp.deleteBatch ids ∈ ops → p.id ∉ ids) ∧
      (∀ pl, StoreOp.insert p.page_content pl ∉ ops) := by
  cases hr : embedLoop tools (st.points.map (fun p => p.page_content)) f st with
  | err m st1 ops1 =>
    rw [embed_tools_err_eq tools st f m st1 ops1 hr] at h
    exact PassResult.noConfusion h
  | ok st1 ops1 =>
    rw [embed_tools_ok_eq tools st f st1 ops1 hr] at h
    have hni : p.id ∉ staleIds tools st :=
      not_mem_staleIds_of_active tools st hwf p hp hact
    have hp1 : p ∈ st1.points := by
      obtain ⟨news, hext, -⟩ :=
        embedLoop_points_ext tools (st.points.map (fun q => q.page_content)) f st
      rw [hr] at hext
      simp only [PassResult.store_ok] at hext
      rw [hext]
      exact List.mem_append_left _ hp
    have hnoins : ∀ pl, StoreOp.insert p.page_content pl ∉ ops1 := by
      intro pl hop
      obtain ⟨t, -, hted, w, hw⟩ := embedLoop_ops_shape tools
        (st.points.map (fun q => q.page_content)) f st _ (by rw [hr]; exact hop)
      have : p.page_content = t.description := by
        injection hw with h1 h2
      exact hted (this ▸ List.mem_map.mpr ⟨p, hp, rfl⟩)
    by_cases hlen : (staleIds tools st).length > 0
    · rw [if_pos hlen] at h
      cases h
      refine ⟨(mem_deletePoints st1 _ p).mpr ⟨hp1, hni⟩, ?_, ?_⟩
      · intro ids hdb
        rcases List.mem_append.mp hdb with hin | hin
        · obtain ⟨t, -, -, w, hw⟩ := embedLoop_ops_shape tools
            (st.points.map (fun q => q.page_content)) f st _ (by rw [hr]; exact hin)
          exact StoreOp.noConfusion hw
        · have : StoreOp.deleteBatch ids = StoreOp.deleteBatch (staleIds tools st) :=
            List.mem_singleton.mp hin
          injection this with h1
          rw [h1]
          exact hni
      · intro pl hop
        rcases List.mem_append.mp hop with hin | hin
        · exact hnoins pl hin
        · exact StoreOp.noConfusion (List.mem_singleton.mp hin)
    · rw [if_neg hlen] at h
      cases h
      refine ⟨hp1, ?_, hnoins⟩
      intro ids hdb
      obtain ⟨t, -, -, w, hw⟩ := embedLoop_ops_shape tools
        (st.points.map (fun q => q.page_content)) f st _ (by rw [hr]; exact hdb)
      exact StoreOp.noConfusion hw

theorem C6_present_untouched_witness :
    (Store.wf ⟨[⟨0, "toolB", ⟨"tool", 0, "b", "db"⟩⟩], 1, 0⟩) ∧
    ((⟨0, "toolB", ⟨"tool", 0, "b", "db"⟩⟩ : Point)
        ∈ (Store.mk [⟨0, "toolB", ⟨"tool", 0, "b", "db"⟩⟩] 1 0).points) ∧
    ((⟨0, "toolB", ⟨"tool", 0, "b", "db"⟩⟩ : Point)
        ∈ (Store.mk [⟨0, "toolB", ⟨"tool", 0, "b", "db"⟩⟩] 1 0).points ∧
      (∀ ids, StoreOp.deleteBatch ids ∈ ([] : List StoreOp) →
        (0 : Nat) ∉ ids) ∧
      (∀ pl, StoreOp.insert "toolB" pl ∉ ([] : List StoreOp))) :=
  ⟨by decide, by decide,
    C6_present_untouched [⟨"b", "toolB", "db"⟩]
      ⟨[⟨0, "toolB", ⟨"tool", 0, "b", "db"⟩⟩], 1, 0⟩ (fun _ => false)
      ⟨[⟨0, "toolB", ⟨"tool", 0, "b", "db"⟩⟩], 1, 0⟩ []
      ⟨0, "toolB", ⟨"tool", 0, "b", "db"⟩⟩ (by decide) (by decide) (by decide) rfl⟩

/-- C8: every point inserted by a pass carries text equal to the tool's
description and the metadata dictionary `{source: "tool", when: timestamp,
name: tool.name, docstring: tool.docstring}` (exactly the fields of
`Payload`). -/
theorem C8_insert_payload (tools : List Tool) (st : Store) (ff : Bool)
    (f : String → Bool) (txt : String) (pl : Payload)
    (h : StoreOp.insert txt pl ∈ (embed_tools tools st ff f).ops) :
    ∃ t ∈ tools, txt = t.description ∧ pl.source = "tool" ∧
      pl.name = t.name ∧ pl.docstring = t.docstring := by
  cases ff with
  | true => simp [embed_tools] at h
  | false =>
    cases hr : embedLoop tools (st.points.map (fun p => p.page_content)) f st with
    | err m st1 ops1 =>
      rw [embed_tools_err_eq tools st f m st1 ops1 hr] at h
      simp only [PassResult.ops_err] at h
      obtain ⟨t, ht, -, w, hw⟩ := embedLoop_ops_shape tools
        (st.points.map (fun p => p.page_content)) f st _ (by rw [hr]; exact h)
      injection hw with h1 h2
      subst h1 h2
      exact ⟨t, ht, rfl, rfl, rfl, rfl⟩
    | ok st1 ops1 =>
      rw [embed_tools_ok_eq tools st f st1 ops1 hr] at h
      have hmem : StoreOp.insert txt pl ∈ ops1 := by
        by_cases hlen : (staleIds tools st).length > 0
        · rw [if_pos hlen] at h
          simp only [PassResult.ops_ok] at h
          rcases List.mem_append.mp h with hin | hin
          · exact hin
          · exact StoreOp.noConfusion (List.mem_singleton.mp hin)
        · rw [if_neg hlen] at h
          simpa using h
      obtain ⟨t, ht, -, w, hw⟩ := embedLoop_ops_shape tools
        (st.points.map (fun p => p.page_content)) f st _ (by rw [hr]; exact hmem)
      injection hw with h1 h2
      subst h1 h2
      exact ⟨t, ht, rfl, rfl, rfl, rfl⟩

theorem C8_insert_payload_witness :
    ∃ t ∈ [Tool.mk "a" "toolA" "da"], "toolA" = t.description ∧
      (Payload.mk "tool" 0 "a" "da").source = "tool" ∧
      (Payload.mk "tool" 0 "a" "da").name = t.name ∧
      (Payload.mk "tool" 0 "a" "da").docstring = t.docstring :=
  C8_insert_payload [⟨"a", "toolA", "da"⟩] ⟨[], 0, 0⟩ false (fun _ => false)
    "toolA" ⟨"tool", 0, "a", "da"⟩ (by decide)

/-- C9: the delete batch is drawn exclusively from the identifiers returned by
the initial fetch; in a wellformed store those are all below the fresh-id
counter, so a point inserted during the same pass (fresh id) can never appear
in it. -/
theorem C9_delete_from_snapshot (tools : List Tool) (st : Store) (f : String → Bool)
    (st' : Store) (ops : List StoreOp) (ids : List Nat)
    (h : embed_tools tools st false f = .ok st' ops)
    (hdb : StoreOp.deleteBatch ids ∈ ops) :
    (∀ i ∈ ids, i ∈ st.points.map (fun p => p.id)) ∧
      (st.wf → ∀ i ∈ ids, i < st.nextId) := by
  cases hr : embedLoop tools (st.points.map (fun p => p.page_content)) f st with
  | err m st1 ops1 =>
    rw [embed_tools_err_eq tools st f m st1 ops1 hr] at h
    exact PassResult.noConfusion h
  | ok st1 ops1 =>
    rw [embed_tools_ok_eq tools st f st1 ops1 hr] at h
    by_cases hlen : (staleIds tools st).length > 0
    · rw [if_pos hlen] at h
      cases h
      rcases List.mem_append.mp hdb with hin | hin
      · obtain ⟨t, -, -, w, hw⟩ := embedLoop_ops_shape tools
          (st.points.map (fun p => p.page_content)) f st _ (by rw [hr]; exact hin)
        exact StoreOp.noConfusion hw
      · have hid : StoreOp.deleteBatch ids = StoreOp.deleteBatch (staleIds tools st) :=
          List.mem_singleton.mp hin
        injection hid with h1
        subst h1
        exact ⟨fun i hi => staleIds_subset_ids tools st i hi,
          fun hwf i hi => staleIds_lt_nextId tools st hwf i hi⟩
    · rw [if_neg hlen] at h
      cases h
      obtain ⟨t, -, -, w, hw⟩ := embedLoop_ops_shape tools
        (st.points.map (fun p => p.page_content)) f st _ (by rw [hr]; exact hdb)
      exact StoreOp.noConfusion hw

theorem C9_delete_from_snapshot_witness :
    (∀ i ∈ [0],
      i ∈ (Store.mk [⟨0, "old", ⟨"tool", 0, "o", "do"⟩⟩] 1 0).points.map (fun p => p.id)) ∧
      ((Store.mk [⟨0, "old", ⟨"tool", 0, "o", "do"⟩⟩] 1 0).wf →
        ∀ i ∈ [0], i < (Store.mk [⟨0, "old", ⟨"tool", 0, "o", "do"⟩⟩] 1 0).nextId) :=
  C9_delete_from_snapshot [] ⟨[⟨0, "old", ⟨"tool", 0, "o", "do"⟩⟩], 1, 0⟩
    (fun _ => false) ⟨[], 1, 0⟩ [.deleteBatch [0]] [0] rfl (by decide)

/-- C10: the delete step never removes a point whose description appears in
the registry snapshot; in particular all pre-existing points sharing one
active description are retained — a pass never deduplicates the store. -/
theorem C10_active_never_deleted (tools : List Tool) (st : Store) (f : String → Bool)
    (st' : Store) (ops : List StoreOp) (d : String) (hwf : st.wf)
    (hact : d ∈ tools.map (fun t => t.description))
    (h : embed_tools tools st false f = .ok st' ops) :
    ∀ p ∈ st.points, p.page_content = d → p ∈ st'.points := by
  intro p hp hpd
  cases hr : embedLoop tools (st.points.map (fun q => q.page_content)) f st with
  | err m st1 ops1 =>
    rw [embed_tools_err_eq tools st f m st1 ops1 hr] at h
    exact PassResult.noConfusion h
  | ok st1 ops1 =>
    rw [embed_tools_ok_eq tools st f st1 ops1 hr] at h
    have hni : p.id ∉ staleIds tools st :=
      not_mem_staleIds_of_active tools st hwf p hp (hpd ▸ hact)
    have hp1 : p ∈ st1.points := by
      obtain ⟨news, hext, -⟩ :=
        embedLoop_points_ext tools (st.points.map (fun q => q.page_content)) f st
      rw [hr] at hext
      simp only [PassResult.store_ok] at hext
      rw [hext]
      exact List.mem_append_left _ hp
    by_cases hlen : (staleIds tools st).length > 0
    · rw [if_pos hlen] at h
      cases h
      exact (mem_deletePoints st1 _ p).mpr ⟨hp1, hni⟩
    · rw [if_neg hlen] at h
      cases h
      exact hp1

theorem C10_active_never_deleted_witness :
    (⟨0, "toolD", ⟨"tool", 0, "d1", "dd1"⟩⟩ : Point) ∈
        (Store.mk [⟨0, "toolD", ⟨"tool", 0, "d1", "dd1"⟩⟩,
          ⟨1, "toolD", ⟨"tool", 0, "d2", "dd2"⟩⟩] 2 0).points ∧
      (⟨0, "toolD", ⟨"tool", 0, "d1", "dd1"⟩⟩ : Point).page_content = "toolD" :=
  ⟨C10_active_never_deleted [⟨"d", "toolD", "dd"⟩]
      ⟨[⟨0, "toolD", ⟨"tool", 0, "d1", "dd1"⟩⟩,
        ⟨1, "toolD", ⟨"tool", 0, "d2", "dd2"⟩⟩], 2, 0⟩ (fun _ => false)
      ⟨[⟨0, "toolD", ⟨"tool", 0, "d1", "dd1"⟩⟩,
        ⟨1, "toolD", ⟨"tool", 0, "d2", "dd2"⟩⟩], 2, 0⟩ [] "toolD"
      (by decide) (by decide) rfl
      ⟨0, "toolD", ⟨"tool", 0, "d1", "dd1"⟩⟩ (by decide) rfl,
    rfl⟩

/-- List-level form of the completed state of a successful pass: the surviving
point list is the post-insert-loop list with the stale ids filtered out. -/
theorem embed_tools_ok_points_list (tools : List Tool) (st : Store) (st1 : Store)
    (ops1 : List StoreOp) (st' : Store) (ops : List StoreOp) (f : String → Bool)
    (hr : embedLoop tools (st.points.map (fun p => p.page_content)) f st
      = .ok st1 ops1)
    (h : embed_tools tools st false f = .ok st' ops) :
    st'.points = st1.points.filter (fun p => p.id ∉ staleIds tools st) := by
  rw [embed_tools_ok_eq tools st f st1 ops1 hr] at h
  by_cases hlen : (staleIds tools st).length > 0
  · rw [if_pos hlen] at h
    cases h
    rfl
  · rw [if_neg hlen] at h
    cases h
    have hnil : staleIds tools st = [] :=
      List.length_eq_zero.mp (Nat.eq_zero_of_not_pos hlen)
    rw [hnil]
    simp

/-- C1 as stated is false on the code: a registry with two ToolDescriptors
sharing the not-yet-embedded description "toolZ" yields TWO embedded points
for "toolZ" after one pass, not one — the membership check consults only the
description list built from the initial fetch, which is not updated as the
loop inserts. -/
theorem C1_counterexample :
    ((embed_tools [⟨"a", "toolZ", "da"⟩, ⟨"b", "toolZ", "db"⟩] ⟨[], 0, 0⟩ false
        (fun _ => false)).store.points.filter
      (fun p => p.page_content = "toolZ")).length = 2 ∧ (2 : Nat) ≠ 1 :=
  ⟨rfl, by decide⟩

/-- C1 amended: for a description not yet embedded at fetch time, one
successful pass creates one embedded point per registry occurrence of that
description (so two duplicate descriptors produce two points). -/
theorem C1_amended_point_per_occurrence (tools : List Tool) (st : Store)
    (d : String) (st' : Store) (ops : List StoreOp) (hwf : st.wf)
    (hnew : d ∉ st.points.map (fun p => p.page_content))
    (h : embed_tools tools st false (fun _ => false) = .ok st' ops) :
    (st'.points.filter (fun p => p.page_content = d)).length =
      (tools.filter (fun t => t.description = d)).length := by
  obtain ⟨st1, ops1, hok⟩ :=
    embedLoop_noFail_ok tools (st.points.map (fun p => p.page_content)) st
  have hpts := embed_tools_ok_points_list tools st st1 ops1 st' ops
    (fun _ => false) hok h
  obtain ⟨news, hext, hnews⟩ :=
    embedLoop_points_ext tools (st.points.map (fun p => p.page_content)) (fun _ => false) st
  rw [hok] at hext
  simp only [PassResult.store_ok] at hext
  have hcnt := embedLoop_count tools (st.points.map (fun p => p.page_content)) st d
  rw [hok] at hcnt
  simp only [PassResult.store_ok] at hcnt
  rw [if_neg hnew] at hcnt
  have hstz : st.points.filter (fun p => p.page_content = d) = [] := by
    rw [List.filter_eq_nil_iff]
    intro p hp
    simp only [decide_eq_true_eq]
    intro he
    exact hnew (he ▸ List.mem_map.mpr ⟨p, hp, rfl⟩)
  have hkeep : news.filter (fun p => p.id ∉ staleIds tools st) = news := by
    rw [List.filter_eq_self]
    intro q hq
    have hge := (hnews q hq).1
    simp only [decide_eq_true_eq]
    intro hqs
    exact absurd (staleIds_lt_nextId tools st hwf q.id hqs) (by omega)
  rw [hext, List.filter_append, hstz, List.nil_append] at hcnt
  rw [hpts, hext, List.filter_append, hkeep, List.filter_append,
    List.filter_comm, hstz]
  simpa using hcnt

theorem C1_amended_point_per_occurrence_witness :
    (Store.wf ⟨[], 0, 0⟩) ∧
    ((Store.mk [⟨0, "toolZ", ⟨"tool", 0, "a", "da"⟩⟩,
        ⟨1, "toolZ", ⟨"tool", 1, "b", "db"⟩⟩] 2 2).points.filter
          (fun p => p.page_content = "toolZ")).length =
      ([Tool.mk "a" "toolZ" "da", Tool.mk "b" "toolZ" "db"].filter
          (fun t => t.description = "toolZ")).length :=
  ⟨by decide, C1_amended_point_per_occurrence
    [⟨"a", "toolZ", "da"⟩, ⟨"b", "toolZ", "db"⟩] ⟨[], 0, 0⟩ "toolZ"
    ⟨[⟨0, "toolZ", ⟨"tool", 0, "a", "da"⟩⟩, ⟨1, "toolZ", ⟨"tool", 1, "b", "db"⟩⟩], 2, 2⟩
    [.insert "toolZ" ⟨"tool", 0, "a", "da"⟩, .insert "toolZ" ⟨"tool", 1, "b", "db"⟩]
    (by decide) (by decide) rfl⟩

/-- C4 as stated is false on the code: `embed_tools` has no exception
handling, so when inserting "toolX" fails the pass aborts immediately —
"toolY" is not processed and the delete step does not run even though the
point "stale" is genuinely stale; the store is left exactly as fetched. -/
theorem C4_counterexample :
    embed_tools [⟨"x", "toolX", "dx"⟩, ⟨"y", "toolY", "dy"⟩]
        ⟨[⟨0, "stale", ⟨"tool", 0, "s", "ds"⟩⟩], 1, 0⟩ false (fun d => d == "toolX")
      = .err "EmbeddingProviderError"
          ⟨[⟨0, "stale", ⟨"tool", 0, "s", "ds"⟩⟩], 1, 0⟩ [] := rfl

/-- C4 amended: an insert failure is not caught inside the pass; the exception
propagates, so a failed pass never reaches the delete step — its operation
trace contains no delete batch (inserts already performed persist). -/
theorem C4_amended_failure_aborts_pass (tools : List Tool) (st : Store) (ff : Bool)
    (f : String → Bool) (m : String) (st' : Store) (ops : List StoreOp)
    (h : embed_tools tools st ff f = .err m st' ops) :
    ∀ ids, StoreOp.deleteBatch ids ∉ ops := by
  intro ids hdb
  cases ff with
  | true =>
    have h' : PassResult.err "StoreReadError" st [] = PassResult.err m st' ops := h
    injection h' with h1 h2 h3
    subst h3
    simp at hdb
  | false =>
    cases hr : embedLoop tools (st.points.map (fun p => p.page_content)) f st with
    | ok st1 ops1 =>
      rw [embed_tools_ok_eq tools st f st1 ops1 hr] at h
      by_cases hlen : (staleIds tools st).length > 0
      · rw [if_pos hlen] at h
        exact PassResult.noConfusion h
      · rw [if_neg hlen] at h
        exact PassResult.noConfusion h
    | err m1 st1 ops1 =>
      rw [embed_tools_err_eq tools st f m1 st1 ops1 hr] at h
      injection h with h1 h2 h3
      subst h3
      obtain ⟨t, -, -, w, hw⟩ := embedLoop_ops_shape tools
        (st.points.map (fun p => p.page_content)) f st _ (by rw [hr]; exact hdb)
      exact StoreOp.noConfusion hw

theorem C4_amended_failure_aborts_pass_witness :
    StoreOp.deleteBatch [0] ∉ [StoreOp.insert "toolY" ⟨"tool", 0, "y", "dy"⟩] :=
  C4_amended_failure_aborts_pass [⟨"y", "toolY", "dy"⟩, ⟨"x", "toolX", "dx"⟩]
    ⟨[], 0, 0⟩ false (fun d => d == "toolX") "EmbeddingProviderError"
    ⟨[⟨0, "toolY", ⟨"tool", 0, "y", "dy"⟩⟩], 1, 1⟩
    [.insert "toolY" ⟨"tool", 0, "y", "dy"⟩] rfl [0]

end Gatto
